import Mathlib

/-!
Shallow embedding of the `cos` repository's fixed-point numeric core
(`src/cos-num/src/lib.rs`, the canonical dual-parameter `Num<F, TF>` type;
`src/src/num.rs` where a claim refers to the single-parameter revision).

A value of `Num<F, TF>` is a signed 64-bit integer `raw` interpreted as
`raw / 10^F`.  We embed raw values as unbounded `Int` together with explicit
64-bit wraparound (`wrap`) at every operation that Rust performs with
wrapping semantics.  Plain Rust `+`, `-`, `*` inside the library compile to
wrapping arithmetic in the release builds used on the embedded target, so
they are modelled with `wrap` as well; `saturating_mul` is modelled by
`satMul`; Rust `/` and `%` on `i64` (truncation towards zero) are modelled
by `Int.tdiv` / `Int.tmod`; operations that panic (`assert!`, division by
zero, the `i64::MIN / -1` overflow) are modelled as `Option` with `none`
for the panic.
-/

namespace Cos

/-- Two's-complement wraparound of an unbounded integer into the `i64`
range `[-2^63, 2^63)`, i.e. arithmetic modulo `2^64`. -/
def wrap (n : Int) : Int := (n + 2 ^ 63) % 2 ^ 64 - 2 ^ 63

/-- Rust `i64::saturating_mul`: the mathematical product clamped to the
`i64` range. -/
def satMul (a b : Int) : Int :=
  if a * b > 2 ^ 63 - 1 then 2 ^ 63 - 1
  else if a * b < -(2 ^ 63) then -(2 ^ 63) else a * b

/-- Rust `i64::abs` under release (wrapping) semantics: `i64::MIN.abs()`
wraps back to `i64::MIN`. -/
def rAbs (a : Int) : Int := if a < 0 then wrap (-a) else a

/-- `Num::<F, TF>::SCALE = 10^F`, computed in the source by a `const` loop. -/
def SCALE (F : Nat) : Int := 10 ^ F

/-- `Num::from_int(n) = Self(n.saturating_mul(Self::SCALE))`. -/
def fromInt (F : Nat) (n : Int) : Int := satMul n (SCALE F)

/-- `Num::ONE = Num::from_int(1)`. -/
def ONE (F : Nat) : Int := fromInt F 1

/-- `Num::from_2_longs(int, frac)`: builds a constant from an integer part
and a 19-digit fractional numerator, rounding the numerator half-away-from-
zero at divisor `10^(19-F)`. -/
def from2longs (F : Nat) (int frac : Int) : Int :=
  if F = 0 then int
  else
    let divisor : Int := 10 ^ (19 - F)
    let roundedFrac :=
      if 0 ≤ frac then Int.tdiv (wrap (frac + Int.tdiv divisor 2)) divisor
      else Int.tdiv (wrap (frac - Int.tdiv divisor 2)) divisor
    wrap (satMul int (SCALE F) + roundedFrac)

/-- `Num::PI`. -/
def PI (F : Nat) : Int := from2longs F 3 1415926535897932384

/-- `Num::TAU`. -/
def TAU (F : Nat) : Int := from2longs F 6 2831853071795864769

/-- `Add for Num`: `self.0.wrapping_add(rhs.0)`. -/
def addCode (a b : Int) : Int := wrap (a + b)

/-- `Sub for Num`: `self.0.wrapping_sub(rhs.0)`. -/
def subCode (a b : Int) : Int := wrap (a - b)

/-- `Neg for Num`: `self.0.wrapping_neg()`. -/
def negCode (a : Int) : Int := wrap (-a)

/-- Body of `Mul for Num` on raw values at scale `S`:
`r = a.wrapping_mul(b)`, then divide by `S` adding `±S/2` chosen by the
sign of `r` (the additions are plain i64 additions, hence wrapping). -/
def mulRaw (S a b : Int) : Int :=
  let r := wrap (a * b)
  if 0 ≤ r then Int.tdiv (wrap (r + Int.tdiv S 2)) S
  else Int.tdiv (wrap (r - Int.tdiv S 2)) S

/-- Body of `Div for Num` (the total value computed when no panic occurs):
`r = a.wrapping_mul(SCALE)`, then divide by `b` adding `±b/2` chosen by
the sign of `r`. -/
def rawDivRound (S a b : Int) : Int :=
  let r := wrap (a * S)
  if 0 ≤ r then Int.tdiv (wrap (r + Int.tdiv b 2)) b
  else Int.tdiv (wrap (r - Int.tdiv b 2)) b

/-- `Div for Num` at precision `F`, with `none` for the two panics: the
`assert!(rhs.0 != 0)` and the `i64::MIN / -1` hardware overflow of the
final division. -/
def divCode (F : Nat) (a b : Int) : Option Int :=
  if b = 0 then none
  else
    let r := wrap (a * SCALE F)
    let num := if 0 ≤ r then wrap (r + Int.tdiv b 2) else wrap (r - Int.tdiv b 2)
    if num = -(2 ^ 63) ∧ b = -1 then none
    else some (Int.tdiv num b)

/-- `Rem for Num`: `Self(self.0 % rhs.0)`, with `none` for the division-by-
zero panic and for the `i64::MIN % -1` overflow panic. -/
def remCode (a b : Int) : Option Int :=
  if b = 0 then none
  else if a = -(2 ^ 63) ∧ b = -1 then none
  else some (Int.tmod a b)

/-- First half of `Num::normalize_angle`: if `|angle| > TAU` (Rust `abs`,
wrapping), divide by `TAU` with the fixed-point `Div`, round the quotient
to a whole number of rotations (adding `±SCALE/2` by the sign of the
quotient), and subtract that many full turns (`TAU * from_int(whole)`).
The division by `TAU` cannot panic because `TAU > 0` at every precision,
so the total body `rawDivRound` is used. -/
def rotBranch (F : Nat) (a : Int) : Int :=
  if TAU F < rAbs a then
    let rot := rawDivRound (SCALE F) a (TAU F)
    let whole :=
      if 0 ≤ rot then Int.tdiv (wrap (rot + Int.tdiv (SCALE F) 2)) (SCALE F)
      else Int.tdiv (wrap (rot - Int.tdiv (SCALE F) 2)) (SCALE F)
    subCode a (mulRaw (SCALE F) (TAU F) (satMul whole (SCALE F)))
  else a

/-- Second half of `Num::normalize_angle`: the single conditional fold of
a residual outside `[-PI, PI]` by one `TAU`. -/
def foldTau (F : Nat) (b : Int) : Int :=
  if PI F < b then subCode b (TAU F)
  else if b < negCode (PI F) then addCode b (TAU F)
  else b

/-- `Num::normalize_angle` at precision `F`. -/
def normalizeAngle (F : Nat) (a : Int) : Int := foldTau F (rotBranch F a)

/-- The literal factorial lookup table of `Num::factorial` (`match self.0 /
Self::SCALE`), `none` for the `n > 20` panic arm. -/
def factTable (n : Int) : Option Int :=
  if n = 0 ∨ n = 1 then some 1
  else if n = 2 then some 2
  else if n = 3 then some 6
  else if n = 4 then some 24
  else if n = 5 then some 120
  else if n = 6 then some 720
  else if n = 7 then some 5040
  else if n = 8 then some 40320
  else if n = 9 then some 362880
  else if n = 10 then some 3628800
  else if n = 11 then some 39916800
  else if n = 12 then some 479001600
  else if n = 13 then some 6227020800
  else if n = 14 then some 87178291200
  else if n = 15 then some 1307674368000
  else if n = 16 then some 20922789888000
  else if n = 17 then some 355687428096000
  else if n = 18 then some 6402373705728000
  else if n = 19 then some 121645100408832000
  else if n = 20 then some 2432902008176640000
  else none

/-- `Num::factorial` at precision `F`: `none` models the negativity and
non-integrality asserts and the `n > 20` panic; the table entry is
multiplied by the scale with `saturating_mul`. -/
def factorialCode (F : Nat) (raw : Int) : Option Int :=
  if raw < 0 then none
  else if Int.tmod raw (SCALE F) ≠ 0 then none
  else (factTable (Int.tdiv raw (SCALE F))).map (fun v => satMul v (SCALE F))

/-- Loop of `Num::taylor_series` in `cos-num/src/lib.rs`, instrumented
with the number of iterations performed.  The source loop is
`while n < 15 { (dividend, result) = next(dividend, n); sum += result;
n += acc; }`; a fuel of 15 is enough to reproduce it exactly whenever
`acc ≥ 1` (for `acc = 0` the Rust loop never terminates). -/
def taylorAuxCN (next : Int → Nat → Int × Int) (acc : Nat) :
    Nat → Int → Int → Nat → Int × Nat
  | 0, sum, _, _ => (sum, 0)
  | fuel + 1, sum, dividend, n =>
    if n < 15 then
      let p := next dividend n
      let r := taylorAuxCN next acc fuel (wrap (sum + p.2)) p.1 (n + acc)
      (r.1, r.2 + 1)
    else (sum, 0)

/-- `Num::taylor_series(first, acc, next)` of `cos-num/src/lib.rs`
together with its iteration count. -/
def taylorSeriesCNC (first : Int) (acc : Nat) (next : Int → Nat → Int × Int) :
    Int × Nat :=
  taylorAuxCN next acc 15 first first (1 + acc)

/-- The summed value of `Num::taylor_series` of `cos-num/src/lib.rs`. -/
def taylorSeriesCN (first : Int) (acc : Nat) (next : Int → Nat → Int × Int) :
    Int :=
  (taylorSeriesCNC first acc next).1

/-- Default iteration cap of `Num::taylor_series` in `src/num.rs`:
`max_iterations.unwrap_or(if F < 4 { 6 } else if F < 8 { 10 } else { 15 })`. -/
def capOf (F : Nat) (maxIterations : Option Nat) : Nat :=
  maxIterations.getD (if F < 4 then 6 else if F < 8 then 10 else 15)

/-- Loop of `Num::taylor_series` in `src/num.rs`, instrumented with the
iteration count: `while n < max_iterations && term.0.abs() > 10 {
term = next_term(term, n); sum += term; n += 1; }`.  A fuel equal to the
cap reproduces the loop exactly (the index starts at 1 and increases by
1 every iteration). -/
def taylorAuxSrc (next : Int → Nat → Int) (cap : Nat) :
    Nat → Int → Int → Nat → Int × Nat
  | 0, sum, _, _ => (sum, 0)
  | fuel + 1, sum, term, n =>
    if n < cap ∧ 10 < rAbs term then
      let t := next term n
      let r := taylorAuxSrc next cap fuel (wrap (sum + t)) t (n + 1)
      (r.1, r.2 + 1)
    else (sum, 0)

/-- `Num::taylor_series(first_term, next_term, max_iterations)` of
`src/num.rs` together with its iteration count. -/
def taylorSeriesSrcC (F : Nat) (first : Int) (next : Int → Nat → Int)
    (maxIterations : Option Nat) : Int × Nat :=
  taylorAuxSrc next (capOf F maxIterations) (capOf F maxIterations) first first 1

/-- `Num::increase_frac::<NEW_F>` from precision `F`: `none` models the
`assert!(NEW_F >= F)` panic; otherwise multiply the raw value by
`10^(NEW_F - F)` with `saturating_mul`. -/
def increaseFrac (F NEWF : Nat) (raw : Int) : Option Int :=
  if NEWF < F then none
  else if NEWF = F then some raw
  else some (satMul raw (10 ^ (NEWF - F)))

/-- `Num::decrease_frac::<NEW_F>` from precision `F`: `none` models the
`assert!(NEW_F <= F)` panic; otherwise divide the raw value by
`10^(F - NEW_F)` adding `±divisor/2` by the sign of the raw value. -/
def decreaseFrac (F NEWF : Nat) (raw : Int) : Option Int :=
  if F < NEWF then none
  else if NEWF = F then some raw
  else
    let d : Int := 10 ^ (F - NEWF)
    some (if 0 ≤ raw then Int.tdiv (wrap (raw + Int.tdiv d 2)) d
          else Int.tdiv (wrap (raw - Int.tdiv d 2)) d)

end Cos

namespace Cos

set_option maxRecDepth 4000 in
/-- Decided arithmetic facts about the embedded constants, for every
precision `F ≤ 18`: `PI` is nonnegative and at most `4·10^18`, `PI ≤ TAU`,
and `TAU` differs from `2·PI` by at most one raw unit. -/
theorem tau_pi_facts : ∀ F < 19, 0 ≤ PI F ∧ PI F ≤ 4 * 10 ^ 18 ∧
    PI F ≤ TAU F ∧ 2 * PI F - 1 ≤ TAU F ∧ TAU F ≤ 2 * PI F + 1 := by decide

set_option maxRecDepth 4000 in
/-- Further decided constant facts for every precision `F ≤ 18`:
`3 ≤ PI`, `6 ≤ TAU`, and `TAU ≤ 7 · 10^F` (the turn is under seven
scale units). -/
theorem tau_scale_facts : ∀ F < 19, 3 ≤ PI F ∧ 6 ≤ TAU F ∧
    TAU F ≤ 7 * 10 ^ F := by decide

end Cos

namespace Cos

/-- `wrap` is the identity on the `i64` range. -/
theorem wrap_eq_self {n : Int} (h1 : -(2 ^ 63) ≤ n) (h2 : n < 2 ^ 63) :
    wrap n = n := by
  unfold wrap; omega

/-- `satMul` is the exact product when the product is in range. -/
theorem satMul_eq {a b : Int} (h1 : -(2 ^ 63) ≤ a * b) (h2 : a * b < 2 ^ 63) :
    satMul a b = a * b := by
  unfold satMul
  split_ifs with h h' <;> omega

/-- Rust truncating division with nonnegative operands is Euclidean
division. -/
theorem tdiv_nonneg_eq {a b : Int} (ha : 0 ≤ a) (hb : 0 ≤ b) :
    Int.tdiv a b = a / b :=
  Int.tdiv_eq_ediv ha hb

/-- Rust truncating division with a nonpositive dividend and nonnegative
divisor, written through Euclidean division. -/
theorem tdiv_nonpos_eq {a b : Int} (ha : a ≤ 0) (hb : 0 ≤ b) :
    Int.tdiv a b = -((-a) / b) := by
  calc Int.tdiv a b = -Int.tdiv (-a) b := by rw [← Int.neg_tdiv, neg_neg]
  _ = -((-a) / b) := by rw [tdiv_nonneg_eq (by omega) hb]

end Cos

namespace Cos

/-- C6: addition, subtraction and negation wrap silently on 64-bit
overflow (the result is congruent to the exact result modulo `2^64` and
lands back in the `i64` range, with no saturation and no failure), and
therefore `x + zero == x` and `x + (-x) == zero` hold exactly for every
`i64` value `x`, including the extremes of the range. -/
theorem C6_add_neg_wraparound (x y : Int)
    (hx1 : -(2 ^ 63) ≤ x) (hx2 : x < 2 ^ 63)
    (_hy1 : -(2 ^ 63) ≤ y) (_hy2 : y < 2 ^ 63) :
    addCode x 0 = x ∧ addCode x (negCode x) = 0 ∧
    addCode x y % 2 ^ 64 = (x + y) % 2 ^ 64 ∧
    subCode x y % 2 ^ 64 = (x - y) % 2 ^ 64 ∧
    negCode x % 2 ^ 64 = (-x) % 2 ^ 64 ∧
    -(2 ^ 63) ≤ addCode x y ∧ addCode x y < 2 ^ 63 ∧
    -(2 ^ 63) ≤ subCode x y ∧ subCode x y < 2 ^ 63 ∧
    -(2 ^ 63) ≤ negCode x ∧ negCode x < 2 ^ 63 := by
  unfold addCode subCode negCode wrap
  omega

/-- Witness for C6 at the extreme `x = i64::MIN` (where `-x` itself
wraps back to `i64::MIN` and the additive-inverse identity still holds
exactly). -/
theorem C6_add_neg_wraparound_witness :
    addCode (-(2 ^ 63)) (negCode (-(2 ^ 63))) = 0 :=
  (C6_add_neg_wraparound (-(2 ^ 63)) (2 ^ 63 - 1) (by decide) (by decide)
    (by decide) (by decide)).2.1

/-- C9 counterexample: the claim states that `x % y` fails only for a
zero divisor and otherwise returns the raw truncating remainder; but at
`x = i64::MIN`, `y = -1` the Rust `%` operator panics with an overflow
(`none` in the embedding) even though the divisor is nonzero. -/
theorem C9_counterexample :
    remCode (-(2 ^ 63)) (-1) = none ∧ ((-1 : Int) ≠ 0) := by decide

/-- C9 (amended): `x % y` returns the raw truncating remainder
`x.raw % y.raw` with no rounding or rescaling, and fails exactly when the
divisor is zero or when `x = i64::MIN ∧ y = -1` (the Rust remainder
overflow panic, inherited in addition to the division-by-zero failure the
claim describes). -/
theorem C9_rem_raw_tmod (x y : Int) :
    (remCode x y = none ↔ y = 0 ∨ (x = -(2 ^ 63) ∧ y = -1)) ∧
    (y ≠ 0 → ¬(x = -(2 ^ 63) ∧ y = -1) → remCode x y = some (Int.tmod x y)) := by
  unfold remCode
  constructor
  · split_ifs with h1 h2 <;> simp_all
  · intro h1 h2
    split_ifs <;> simp_all

/-- Witness for C9 at `7 % 3`. -/
theorem C9_rem_raw_tmod_witness : remCode 7 3 = some (Int.tmod 7 3) :=
  (C9_rem_raw_tmod 7 3).2 (by decide) (by decide)

end Cos

namespace Cos

/-- The iteration count of the `cos-num` Taylor loop is bounded by
`15 - n` when the step is at least 1. -/
theorem taylorAuxCN_count_le (next : Int → Nat → Int × Int) (acc : Nat)
    (hacc : 1 ≤ acc) :
    ∀ (fuel : Nat) (sum dividend : Int) (n : Nat),
      (taylorAuxCN next acc fuel sum dividend n).2 ≤ 15 - n := by
  intro fuel
  induction fuel with
  | zero => intro sum dividend n; simp [taylorAuxCN]
  | succ fuel ih =>
    intro sum dividend n
    simp only [taylorAuxCN]
    split_ifs with h
    · have := ih (wrap (sum + (next dividend n).2)) (next dividend n).1 (n + acc)
      omega
    · simp

/-- The iteration count of the `src/num.rs` Taylor loop is bounded by
`cap - n`. -/
theorem taylorAuxSrc_count_le (next : Int → Nat → Int) (cap : Nat) :
    ∀ (fuel : Nat) (sum term : Int) (n : Nat),
      (taylorAuxSrc next cap fuel sum term n).2 ≤ cap - n := by
  intro fuel
  induction fuel with
  | zero => intro sum term n; simp [taylorAuxSrc]
  | succ fuel ih =>
    intro sum term n
    simp only [taylorAuxSrc]
    split_ifs with h
    · have := ih (wrap (sum + next term n)) (next term n) (n + 1)
      omega
    · simp

set_option maxRecDepth 8000 in
/-- C2 counterexample: the claim says `taylor_series` stops as soon as the
current term's magnitude falls below a small raw-unit threshold.  In the
canonical `cos-num` accumulator there is no magnitude test at all: with a
first term of raw magnitude 0 (below any positive threshold) and a step
that keeps producing terms of magnitude 100, the loop still runs its full
fixed count (6 iterations at step 2) and returns 600 instead of stopping
at 0. -/
theorem C2_counterexample :
    taylorSeriesCN 0 2 (fun d _ => (d, 100)) = 600 ∧
    taylorSeriesCNC 0 2 (fun d _ => (d, 100)) = (600, 6) := by
  constructor <;> decide

/-- C2 (amended): the `cos-num` `taylor_series` performs no magnitude-based
early termination; it iterates a fixed index loop (`n` from `1 + acc`
while `n < 15`), so for any step `acc ≥ 1` its iteration count is
statically bounded by 13.  The `src/num.rs` revision does both things the
claim describes: its iteration count is bounded by its precision-tiered
cap minus one, and it stops before the first iteration whenever the first
term's magnitude is already at most 10 raw units. -/
theorem C2_taylor_iteration_bounds :
    (∀ (first : Int) (acc : Nat) (next : Int → Nat → Int × Int), 1 ≤ acc →
        (taylorSeriesCNC first acc next).2 ≤ 13) ∧
    (∀ (F : Nat) (first : Int) (next : Int → Nat → Int) (mi : Option Nat),
        (taylorSeriesSrcC F first next mi).2 ≤ capOf F mi - 1 ∧
        (rAbs first ≤ 10 → taylorSeriesSrcC F first next mi = (first, 0))) := by
  constructor
  · intro first acc next hacc
    have := taylorAuxCN_count_le next acc hacc 15 first first (1 + acc)
    unfold taylorSeriesCNC
    omega
  · intro F first next mi
    constructor
    · have := taylorAuxSrc_count_le next (capOf F mi) (capOf F mi) first first 1
      unfold taylorSeriesSrcC
      omega
    · intro hsmall
      unfold taylorSeriesSrcC
      cases hc : capOf F mi with
      | zero => simp [taylorAuxSrc]
      | succ c =>
        simp only [taylorAuxSrc]
        rw [if_neg]
        intro hcontra
        omega

/-- Witness for C2 at a concrete step function. -/
theorem C2_taylor_iteration_bounds_witness :
    (taylorSeriesCNC 5 2 (fun d _ => (d, d))).2 ≤ 13 ∧
    taylorSeriesSrcC 6 3 (fun t _ => t) none = (3, 0) :=
  ⟨C2_taylor_iteration_bounds.1 5 2 (fun d _ => (d, d)) (by decide),
   (C2_taylor_iteration_bounds.2 6 3 (fun t _ => t) none).2 (by decide)⟩

end Cos

namespace Cos

/-- The source's sign-branched rounded division returns `x` exactly on an
exact multiple `x * S`, provided the rounding offset cannot overflow. -/
theorem roundDiv_mul_exact (x S : Int) (hS : 0 < S)
    (hb : (|x| + 1) * S < 2 ^ 63) :
    (if 0 ≤ x * S then Int.tdiv (wrap (x * S + Int.tdiv S 2)) S
     else Int.tdiv (wrap (x * S - Int.tdiv S 2)) S) = x := by
  have hh : Int.tdiv S 2 = S / 2 := tdiv_nonneg_eq (by omega) (by norm_num)
  have hhalf0 : 0 ≤ S / 2 := Int.ediv_nonneg (by omega) (by norm_num)
  have hhalf1 : S / 2 < S := by omega
  have habs : |x| * S + S < 2 ^ 63 := by nlinarith [abs_nonneg x]
  have habs2 : x * S ≤ |x| * S := by
    have := le_abs_self x
    nlinarith
  have habs3 : -(|x| * S) ≤ x * S := by
    have := neg_abs_le x
    nlinarith
  split_ifs with hpos
  · have hx : 0 ≤ x := nonneg_of_mul_nonneg_right (by linarith [hpos] : 0 ≤ S * x) hS
    rw [hh, wrap_eq_self (by omega) (by omega)]
    rw [tdiv_nonneg_eq (by omega) (by omega)]
    have : x * S + S / 2 = S / 2 + S * x := by ring
    rw [this, Int.add_mul_ediv_left _ _ (by omega),
      Int.ediv_eq_zero_of_lt hhalf0 hhalf1]
    ring
  · push_neg at hpos
    have hx : x < 0 := by nlinarith
    rw [hh, wrap_eq_self (by omega) (by omega)]
    rw [tdiv_nonpos_eq (by omega) (by omega)]
    have : -(x * S - S / 2) = S / 2 + S * (-x) := by ring
    rw [this, Int.add_mul_ediv_left _ _ (by omega),
      Int.ediv_eq_zero_of_lt hhalf0 hhalf1]
    ring

/-- The fixed-point product of a raw value `t` with an exact multiple of
the scale is exact, provided the product stays inside `i64` together with
its rounding offset. -/
theorem mulRaw_mul_exact (S t m : Int) (hS : 0 < S)
    (hb : (|t * m| + 1) * S < 2 ^ 63) :
    mulRaw S t (m * S) = t * m := by
  have h1 : t * m * S ≤ |t * m| * S := by
    have := le_abs_self (t * m)
    nlinarith
  have h2 : -(|t * m| * S) ≤ t * m * S := by
    have := neg_abs_le (t * m)
    nlinarith
  have h3 : 0 ≤ |t * m| := abs_nonneg _
  have h0 : |t * m| * S < 2 ^ 63 := by nlinarith
  unfold mulRaw
  rw [show t * (m * S) = t * m * S from by ring,
    wrap_eq_self (by omega) (by omega)]
  exact roundDiv_mul_exact (t * m) S hS hb

/-- C5 counterexample: multiplying `x = 2^62` by `one` at precision 6
wraps the 128-bit product and returns 0, which is not within one raw unit
of `x`. -/
theorem C5_counterexample :
    mulRaw (SCALE 6) (2 ^ 62) (ONE 6) = 0 ∧
    ¬ (|mulRaw (SCALE 6) (2 ^ 62) (ONE 6) - 2 ^ 62| ≤ 1) := by decide

/-- C5 (amended): `x × one == x` holds exactly (hence within one raw
unit) at every precision `F ≤ 18`, provided the scaled product together
with its rounding offset stays inside `i64`
(`(|x.raw| + 1) · 10^F < 2^63`); beyond that bound the wrapping product
makes the result arbitrarily wrong, as the counterexample shows. -/
theorem C5_mul_one (F : Nat) (x : Int) (hF : F < 19)
    (hx : (|x| + 1) * 10 ^ F < 2 ^ 63) :
    mulRaw (SCALE F) x (ONE F) = x := by
  have hS : (0 : Int) < 10 ^ F := by positivity
  have hS18 : (10 : Int) ^ F ≤ 10 ^ 18 := by
    apply pow_le_pow_right₀ (by norm_num)
    omega
  have hone : ONE F = 10 ^ F := by
    unfold ONE fromInt SCALE
    rw [satMul_eq (by norm_num; nlinarith) (by norm_num; nlinarith)]
    ring
  have habs2 : x * 10 ^ F ≤ |x| * 10 ^ F := by
    have := le_abs_self x
    nlinarith
  have habs3 : -(|x| * 10 ^ F) ≤ x * 10 ^ F := by
    have := neg_abs_le x
    nlinarith
  have habs : |x| * 10 ^ F + 10 ^ F < 2 ^ 63 := by nlinarith [abs_nonneg x]
  unfold mulRaw SCALE
  rw [hone, wrap_eq_self (by omega) (by omega)]
  exact roundDiv_mul_exact x (10 ^ F) hS hx

/-- Witness for C5 at `F = 6`, `x.raw = 123456789`. -/
theorem C5_mul_one_witness : mulRaw (SCALE 6) 123456789 (ONE 6) = 123456789 :=
  C5_mul_one 6 123456789 (by decide) (by decide)

end Cos

namespace Cos

/-- C10 counterexample: at `F = 0`, `NEW_F = 2`, `raw = 92233720368547758`
the widened value `raw·100 = 9223372036854775800` fits `i64` (no
saturation), yet narrowing back adds the rounding offset `+50`, overflows
`i64`, wraps negative, and returns `-92233720368547757` instead of `raw`. -/
theorem C10_counterexample :
    (increaseFrac 0 2 92233720368547758).bind (decreaseFrac 2 0) =
      some (-92233720368547757) ∧
    (92233720368547758 * 10 ^ 2 : Int) ≤ 2 ^ 63 - 1 ∧
    (-92233720368547757 : Int) ≠ 92233720368547758 := by decide

/-- C10 (amended): widening from `F` to `NEW_F ≤ 18` followed by
narrowing back to `F` returns the original raw value exactly, provided
not only the widened value `raw · 10^(NEW_F-F)` but also its half-divisor
rounding offset stays inside `i64` (`(|raw| + 1) · 10^(NEW_F-F) < 2^63`);
the counterexample shows the round trip can wrap when only the widened
value itself is required to fit. -/
theorem C10_increase_decrease_roundtrip (F NEWF : Nat) (raw : Int)
    (h1 : F ≤ NEWF) (h2 : NEWF < 19)
    (hb : (|raw| + 1) * 10 ^ (NEWF - F) < 2 ^ 63) :
    (increaseFrac F NEWF raw).bind (decreaseFrac NEWF F) = some raw := by
  rcases Nat.eq_or_lt_of_le h1 with heq | hlt
  · subst heq
    unfold increaseFrac decreaseFrac
    simp
  · have hne : ¬ NEWF = F := by omega
    have hne2 : ¬ NEWF < F := by omega
    have hnlt : ¬ F < NEWF → False := fun h => h hlt
    have hf : (0 : Int) < 10 ^ (NEWF - F) := by positivity
    have habs2 : raw * 10 ^ (NEWF - F) ≤ |raw| * 10 ^ (NEWF - F) := by
      have := le_abs_self raw
      nlinarith
    have habs3 : -(|raw| * 10 ^ (NEWF - F)) ≤ raw * 10 ^ (NEWF - F) := by
      have := neg_abs_le raw
      nlinarith
    have habs : |raw| * 10 ^ (NEWF - F) < 2 ^ 63 := by
      nlinarith [abs_nonneg raw]
    have hinc : increaseFrac F NEWF raw = some (raw * 10 ^ (NEWF - F)) := by
      unfold increaseFrac
      rw [if_neg hne2, if_neg hne, satMul_eq (by omega) (by omega)]
    have hdec : decreaseFrac NEWF F (raw * 10 ^ (NEWF - F)) = some raw := by
      unfold decreaseFrac
      rw [if_neg (show ¬ NEWF < F by omega), if_neg (show ¬ F = NEWF by omega)]
      exact congrArg some (roundDiv_mul_exact raw (10 ^ (NEWF - F)) hf hb)
    rw [hinc]
    simpa using hdec

/-- Witness for C10 at `F = 2`, `NEW_F = 5`, `raw = 314159`. -/
theorem C10_increase_decrease_roundtrip_witness :
    (increaseFrac 2 5 314159).bind (decreaseFrac 5 2) = some 314159 :=
  C10_increase_decrease_roundtrip 2 5 314159 (by decide) (by decide) (by decide)

end Cos

namespace Cos

/-- `Option.map` preserves `isSome`. -/
theorem isSome_map {A B : Type} (f : A → B) (o : Option A) :
    (o.map f).isSome = o.isSome := by cases o <;> rfl

/-- Each table entry below 21 is the exact factorial. -/
theorem factTable_val : ∀ n : Nat, n ≤ 20 →
    factTable (n : Int) = some (Nat.factorial n) := by decide

/-- Outside `[0, 20]` the table has no entry. -/
theorem factTable_none (n : Int) (h : n < 0 ∨ 20 < n) : factTable n = none := by
  unfold factTable
  rw [if_neg (show ¬(n = 0 ∨ n = 1) from by omega),
    if_neg (show ¬n = 2 from by omega),
    if_neg (show ¬n = 3 from by omega),
    if_neg (show ¬n = 4 from by omega),
    if_neg (show ¬n = 5 from by omega),
    if_neg (show ¬n = 6 from by omega),
    if_neg (show ¬n = 7 from by omega),
    if_neg (show ¬n = 8 from by omega),
    if_neg (show ¬n = 9 from by omega),
    if_neg (show ¬n = 10 from by omega),
    if_neg (show ¬n = 11 from by omega),
    if_neg (show ¬n = 12 from by omega),
    if_neg (show ¬n = 13 from by omega),
    if_neg (show ¬n = 14 from by omega),
    if_neg (show ¬n = 15 from by omega),
    if_neg (show ¬n = 16 from by omega),
    if_neg (show ¬n = 17 from by omega),
    if_neg (show ¬n = 18 from by omega),
    if_neg (show ¬n = 19 from by omega),
    if_neg (show ¬n = 20 from by omega)]

/-- The lookup table has an entry exactly for `0 ≤ n ≤ 20`. -/
theorem factTable_isSome (n : Int) :
    (factTable n).isSome ↔ (0 ≤ n ∧ n ≤ 20) := by
  constructor
  · intro hs
    by_cases h0 : 0 ≤ n
    · by_cases h20 : n ≤ 20
      · exact ⟨h0, h20⟩
      · rw [factTable_none n (by omega)] at hs
        simp at hs
    · rw [factTable_none n (by omega)] at hs
      simp at hs
  · rintro ⟨h0, h20⟩
    lift n to Nat using h0 with m
    rw [factTable_val m (by exact_mod_cast h20)]
    rfl

/-- C8 counterexample: `factorial(from_int(20))` at precision 6 succeeds
but returns the saturated value `i64::MAX`, not `20! · 10^6` as the claim
requires (the scaled factorial does not fit `i64`). -/
theorem C8_counterexample :
    factorialCode 6 (fromInt 6 20) = some (2 ^ 63 - 1) ∧
    ((2 : Int) ^ 63 - 1 ≠ 2432902008176640000 * 10 ^ 6) := by decide

/-- C8 (amended): `factorial` succeeds exactly on non-negative integral
raw values whose integer part is at most 20, and `factorial(zero) == one`;
the returned raw value is the table factorial multiplied by the scale with
`saturating_mul`, which equals `n! · 10^F` exactly only when that product
fits `i64` and is clamped to `i64::MAX` otherwise (as in the
counterexample). -/
theorem C8_factorial_domain_value (F : Nat) (raw : Int) (_hF : F < 19) :
    ((factorialCode F raw).isSome ↔
      0 ≤ raw ∧ Int.tmod raw (SCALE F) = 0 ∧ Int.tdiv raw (SCALE F) ≤ 20) ∧
    (∀ n : Nat, n ≤ 20 → (n : Int) * 10 ^ F < 2 ^ 63 →
        factorialCode F ((n : Int) * 10 ^ F) =
          some (satMul (Nat.factorial n) (10 ^ F))) ∧
    (∀ n : Nat, n ≤ 20 → ((Nat.factorial n : Int)) * 10 ^ F < 2 ^ 63 →
        factorialCode F ((n : Int) * 10 ^ F) =
          some ((Nat.factorial n : Int) * 10 ^ F)) ∧
    factorialCode F 0 = some (ONE F) := by
  have hS : (0 : Int) < 10 ^ F := by positivity
  have hSc : SCALE F = 10 ^ F := rfl
  have hmain : ∀ n : Nat, n ≤ 20 → (n : Int) * 10 ^ F < 2 ^ 63 →
      factorialCode F ((n : Int) * 10 ^ F) =
        some (satMul (Nat.factorial n) (10 ^ F)) := by
    intro n hn hfit
    have hraw0 : (0 : Int) ≤ (n : Int) * 10 ^ F := by positivity
    unfold factorialCode
    rw [if_neg (by omega), hSc]
    rw [if_neg (by simp [Int.mul_tmod_left])]
    rw [Int.mul_tdiv_cancel _ (by omega), factTable_val n hn]
    rfl
  refine ⟨?_, hmain, ?_, ?_⟩
  · unfold factorialCode
    split_ifs with h1 h2
    · simp only [Option.isSome_none, Bool.false_eq_true, false_iff]
      intro hcontra
      omega
    · simp only [Option.isSome_none, Bool.false_eq_true, false_iff]
      intro hcontra
      exact h2 hcontra.2.1
    · push_neg at h1 h2
      rw [isSome_map, factTable_isSome]
      have hq : 0 ≤ Int.tdiv raw (SCALE F) :=
        Int.tdiv_nonneg h1 (by rw [hSc]; omega)
      constructor
      · rintro ⟨_, hle⟩
        exact ⟨h1, h2, hle⟩
      · rintro ⟨_, _, hle⟩
        exact ⟨hq, hle⟩
  · intro n hn hfit
    have hle : (n : Int) ≤ (Nat.factorial n : Int) := by
      exact_mod_cast Nat.self_le_factorial n
    have hfact0 : (0 : Int) ≤ (Nat.factorial n : Int) := by positivity
    have hfit2 : (n : Int) * 10 ^ F < 2 ^ 63 := by nlinarith
    rw [hmain n hn hfit2, satMul_eq (by nlinarith) (by omega)]
  · unfold factorialCode
    rw [if_neg (by omega), Int.zero_tdiv]
    rw [if_neg (by simp [Int.zero_tmod])]
    rw [show factTable 0 = some 1 from by decide]
    rfl

/-- Witness for C8: `factorial(zero) == one` at precision 6. -/
theorem C8_factorial_domain_value_witness :
    factorialCode 6 0 = some (ONE 6) :=
  (C8_factorial_domain_value 6 0 (by decide)).2.2.2

end Cos

namespace Cos

/-- The single conditional fold sends any residual within one full turn
into `[-PI, PI]`. -/
theorem foldTau_mem (F : Nat) (hF : F < 19) (b : Int)
    (h1 : -(TAU F) ≤ b) (h2 : b ≤ TAU F) :
    -(PI F) ≤ foldTau F b ∧ foldTau F b ≤ PI F := by
  obtain ⟨hp0, hp4, hpt, htl, htu⟩ := tau_pi_facts F hF
  have hneg : negCode (PI F) = -(PI F) := by
    unfold negCode
    rw [wrap_eq_self (by omega) (by omega)]
  unfold foldTau
  rw [hneg]
  unfold subCode addCode
  split_ifs with hA hB
  · rw [wrap_eq_self (by omega) (by omega)]; omega
  · rw [wrap_eq_self (by omega) (by omega)]; omega
  · omega

/-- Values already inside `[-PI, PI]` are fixed points of
`normalize_angle`. -/
theorem normalize_fixed (F : Nat) (hF : F < 19) (a : Int)
    (h1 : -(PI F) ≤ a) (h2 : a ≤ PI F) : normalizeAngle F a = a := by
  obtain ⟨hp0, hp4, hpt, htl, htu⟩ := tau_pi_facts F hF
  have hrabs : rAbs a ≤ TAU F := by
    unfold rAbs
    split_ifs with h
    · rw [wrap_eq_self (by omega) (by omega)]; omega
    · omega
  have hneg : negCode (PI F) = -(PI F) := by
    unfold negCode
    rw [wrap_eq_self (by omega) (by omega)]
  have hrb : rotBranch F a = a := by
    unfold rotBranch
    rw [if_neg (show ¬ TAU F < rAbs a from by omega)]
  unfold normalizeAngle foldTau
  rw [hrb, hneg, if_neg (show ¬ PI F < a from by omega),
    if_neg (show ¬ a < -(PI F) from by omega)]

set_option maxRecDepth 4000 in
/-- C3 counterexample: at precision 6 the input `x.raw = 2^63 - 1`
(`i64::MAX`) ends far outside `[-PI, PI]`: the wrapped product
`raw * SCALE` collapses the rotation count to zero and the single fold
subtracts only one `TAU`. -/
theorem C3_counterexample :
    ¬ (-(PI 6) ≤ normalizeAngle 6 (2 ^ 63 - 1) ∧
       normalizeAngle 6 (2 ^ 63 - 1) ≤ PI 6) := by decide

/-- Whenever the input already lies within one turn, or its scaled
magnitude plus one turn fits `i64`, the rotation-counting half of
`normalize_angle` subtracts a whole number of turns and lands within one
full turn of zero. -/
theorem rotBranch_bound (F : Nat) (hF : F < 19) (a : Int)
    (hb : |a| ≤ TAU F ∨ (|a| + TAU F + 1) * 10 ^ F < 2 ^ 63) :
    ∃ m : Int, rotBranch F a = a - TAU F * m ∧
      -(TAU F) ≤ a - TAU F * m ∧ a - TAU F * m ≤ TAU F := by
  obtain ⟨hp0, hp4, hpt, htl, htu⟩ := tau_pi_facts F hF
  obtain ⟨hp3, ht6, ht7⟩ := tau_scale_facts F hF
  have hS0 : (0 : Int) < 10 ^ F := by positivity
  have hS1 : (1 : Int) ≤ 10 ^ F := by omega
  have hS18 : (10 : Int) ^ F ≤ 10 ^ 18 := by
    apply pow_le_pow_right₀ (by norm_num)
    omega
  have habs1 : a ≤ |a| := le_abs_self a
  have habs2 : -|a| ≤ a := neg_abs_le a
  have habs0 : 0 ≤ |a| := abs_nonneg a
  have haw : |a| < 2 ^ 63 := by
    rcases hb with h | h
    · omega
    · have h2 : |a| + TAU F + 1 ≤ (|a| + TAU F + 1) * 10 ^ F :=
        le_mul_of_one_le_right (by positivity) hS1
      omega
  have hra : rAbs a = |a| := by
    unfold rAbs
    split_ifs with hneg
    · rw [wrap_eq_self (by omega) (by omega), abs_of_neg hneg]
    · rw [abs_of_nonneg (by omega)]
  by_cases hbr : TAU F < rAbs a
  · -- rotation branch taken: the overflow bound must hold
    have hbr2 : TAU F < |a| := by rw [← hra]; exact hbr
    have hbig : (|a| + TAU F + 1) * 10 ^ F < 2 ^ 63 := by
      rcases hb with h | h
      · omega
      · exact h
    have hSc : SCALE F = 10 ^ F := rfl
    have ht2 : Int.tdiv (TAU F) 2 = TAU F / 2 :=
      tdiv_nonneg_eq (by omega) (by norm_num)
    have ht2a : 0 ≤ TAU F / 2 := Int.ediv_nonneg (by omega) (by norm_num)
    have ht2b : 2 * (TAU F / 2) ≤ TAU F := by omega
    have hSh : Int.tdiv ((10 : Int) ^ F) 2 = 10 ^ F / 2 :=
      tdiv_nonneg_eq (by omega) (by norm_num)
    have hSha : 0 ≤ (10 : Int) ^ F / 2 := Int.ediv_nonneg (by omega) (by norm_num)
    have hShb : 2 * ((10 : Int) ^ F / 2) ≤ 10 ^ F := by omega
    have hbigE : |a| * 10 ^ F + TAU F * 10 ^ F + 10 ^ F < 2 ^ 63 := by linarith
    have htS : TAU F ≤ TAU F * 10 ^ F := le_mul_of_one_le_right (by omega) hS1
    rcases abs_cases a with ⟨haeq, hage⟩ | ⟨haeq, halt⟩
    · -- nonnegative input
      rw [haeq] at hbr2 hbigE
      have hA0 : 0 ≤ a * 10 ^ F := mul_nonneg hage (by omega)
      simp only [rotBranch]
      rw [if_pos hbr, hSc]
      have hrdr : rawDivRound (10 ^ F) a (TAU F) =
          (a * 10 ^ F + TAU F / 2) / TAU F := by
        unfold rawDivRound
        rw [wrap_eq_self (by omega) (by omega), ht2, if_pos (by omega),
          wrap_eq_self (by omega) (by omega)]
        exact tdiv_nonneg_eq (by omega) (by omega)
      rw [hrdr]
      have hq1 := Int.ediv_add_emod (a * 10 ^ F + TAU F / 2) (TAU F)
      have hq2 := Int.emod_nonneg (a * 10 ^ F + TAU F / 2)
        (show TAU F ≠ 0 from by omega)
      have hq3 := Int.emod_lt_of_pos (a * 10 ^ F + TAU F / 2)
        (show 0 < TAU F from by omega)
      set q : Int := (a * 10 ^ F + TAU F / 2) / TAU F with hqdef
      have hq0 : 0 ≤ q := by
        rw [hqdef]
        exact Int.ediv_nonneg (by omega) (by omega)
      have hq4 : q ≤ TAU F * q := le_mul_of_one_le_left hq0 (by omega)
      rw [if_pos hq0, hSh, wrap_eq_self (by omega) (by omega),
        tdiv_nonneg_eq (by omega) (by omega)]
      have hw1 := Int.ediv_add_emod (q + 10 ^ F / 2) (10 ^ F)
      have hw2 := Int.emod_nonneg (q + 10 ^ F / 2)
        (show (10 : Int) ^ F ≠ 0 from by omega)
      have hw3 := Int.emod_lt_of_pos (q + 10 ^ F / 2)
        (show (0 : Int) < 10 ^ F from by omega)
      set w : Int := (q + 10 ^ F / 2) / 10 ^ F with hwdef
      have hw0 : 0 ≤ w := by
        rw [hwdef]
        exact Int.ediv_nonneg (by omega) (by omega)
      have hWu : 10 ^ F * w ≤ q + 10 ^ F / 2 := by omega
      have hWl : q + 10 ^ F / 2 - 10 ^ F + 1 ≤ 10 ^ F * w := by omega
      have hTWu : TAU F * (10 ^ F * w) ≤ TAU F * (q + 10 ^ F / 2) :=
        mul_le_mul_of_nonneg_left hWu (by omega)
      have hTWl : TAU F * (q + 10 ^ F / 2 - 10 ^ F + 1) ≤ TAU F * (10 ^ F * w) :=
        mul_le_mul_of_nonneg_left hWl (by omega)
      have hTh : TAU F * (2 * (10 ^ F / 2)) ≤ TAU F * 10 ^ F :=
        mul_le_mul_of_nonneg_left hShb (by omega)
      have hThl : 0 ≤ TAU F * (10 ^ F / 2) := mul_nonneg (by omega) hSha
      have hTW0 : 0 ≤ TAU F * w := mul_nonneg (by omega) hw0
      have habsTW : |TAU F * w| = TAU F * w := abs_of_nonneg hTW0
      have hμbound : (|TAU F * w| + 1) * 10 ^ F < 2 ^ 63 := by
        rw [habsTW]
        linarith
      rw [satMul_eq (by linarith) (by linarith), mulRaw_mul_exact _ _ _ hS0 hμbound]
      have hout1 : (a - TAU F * w) * 10 ^ F ≤ TAU F * 10 ^ F := by linarith
      have hout2 : -(TAU F) * 10 ^ F ≤ (a - TAU F * w) * 10 ^ F := by linarith
      have hub : a - TAU F * w ≤ TAU F :=
        le_of_mul_le_mul_right hout1 hS0
      have hlb : -(TAU F) ≤ a - TAU F * w :=
        le_of_mul_le_mul_right hout2 hS0
      refine ⟨w, ?_, hlb, hub⟩
      unfold subCode
      exact wrap_eq_self (by omega) (by omega)
    · -- negative input
      rw [haeq] at hbr2 hbigE
      have hA0 : a * 10 ^ F ≤ -(10 ^ F) := by
        have := mul_le_mul_of_nonneg_right (show a ≤ -1 from by omega)
          (show (0 : Int) ≤ 10 ^ F from by omega)
        linarith
      have hAlow : -(2 ^ 63) + TAU F * 10 ^ F + 10 ^ F < a * 10 ^ F := by
        linarith
      simp only [rotBranch]
      rw [if_pos hbr, hSc]
      have hrdr : rawDivRound (10 ^ F) a (TAU F) =
          -(-(a * 10 ^ F - TAU F / 2) / TAU F) := by
        unfold rawDivRound
        rw [wrap_eq_self (by omega) (by omega), ht2, if_neg (by omega),
          wrap_eq_self (by omega) (by omega)]
        exact tdiv_nonpos_eq (by omega) (by omega)
      rw [hrdr]
      have hq1 := Int.ediv_add_emod (-(a * 10 ^ F - TAU F / 2)) (TAU F)
      have hq2 := Int.emod_nonneg (-(a * 10 ^ F - TAU F / 2))
        (show TAU F ≠ 0 from by omega)
      have hq3 := Int.emod_lt_of_pos (-(a * 10 ^ F - TAU F / 2))
        (show 0 < TAU F from by omega)
      set q : Int := -(a * 10 ^ F - TAU F / 2) / TAU F with hqdef
      have hq0 : 0 ≤ q := by
        rw [hqdef]
        exact Int.ediv_nonneg (by omega) (by omega)
      have hq4 : q ≤ TAU F * q := le_mul_of_one_le_left hq0 (by omega)
      have hq5 : 1 ≤ q := by
        rw [hqdef, Int.le_ediv_iff_mul_le (by omega)]
        have h6 : (TAU F + 1) * 10 ^ F ≤ -a * 10 ^ F :=
          mul_le_mul_of_nonneg_right (by omega) (by omega)
        linarith
      rw [if_neg (show ¬ (0 : Int) ≤ -q from by omega), hSh,
        wrap_eq_self (by omega) (by omega)]
      rw [tdiv_nonpos_eq (show -q - 10 ^ F / 2 ≤ 0 from by omega) (by omega),
        show -(-q - (10 : Int) ^ F / 2) = q + 10 ^ F / 2 from by ring]
      have hw1 := Int.ediv_add_emod (q + 10 ^ F / 2) (10 ^ F)
      have hw2 := Int.emod_nonneg (q + 10 ^ F / 2)
        (show (10 : Int) ^ F ≠ 0 from by omega)
      have hw3 := Int.emod_lt_of_pos (q + 10 ^ F / 2)
        (show (0 : Int) < 10 ^ F from by omega)
      set w : Int := (q + 10 ^ F / 2) / 10 ^ F with hwdef
      have hw0 : 0 ≤ w := by
        rw [hwdef]
        exact Int.ediv_nonneg (by omega) (by omega)
      have hWu : 10 ^ F * w ≤ q + 10 ^ F / 2 := by omega
      have hWl : q + 10 ^ F / 2 - 10 ^ F + 1 ≤ 10 ^ F * w := by omega
      have hTWu : TAU F * (10 ^ F * w) ≤ TAU F * (q + 10 ^ F / 2) :=
        mul_le_mul_of_nonneg_left hWu (by omega)
      have hTWl : TAU F * (q + 10 ^ F / 2 - 10 ^ F + 1) ≤ TAU F * (10 ^ F * w) :=
        mul_le_mul_of_nonneg_left hWl (by omega)
      have hTh : TAU F * (2 * (10 ^ F / 2)) ≤ TAU F * 10 ^ F :=
        mul_le_mul_of_nonneg_left hShb (by omega)
      have hThl : 0 ≤ TAU F * (10 ^ F / 2) := mul_nonneg (by omega) hSha
      have hTW0 : 0 ≤ TAU F * w := mul_nonneg (by omega) hw0
      have habsTW : |TAU F * -w| = TAU F * w := by
        rw [mul_neg, abs_neg, abs_of_nonneg hTW0]
      have hμbound : (|TAU F * -w| + 1) * 10 ^ F < 2 ^ 63 := by
        rw [habsTW]
        linarith
      rw [satMul_eq (by linarith) (by linarith), mulRaw_mul_exact _ _ _ hS0 hμbound]
      have hout1 : (a - TAU F * -w) * 10 ^ F ≤ TAU F * 10 ^ F := by linarith
      have hout2 : -(TAU F) * 10 ^ F ≤ (a - TAU F * -w) * 10 ^ F := by linarith
      have hub : a - TAU F * -w ≤ TAU F :=
        le_of_mul_le_mul_right hout1 hS0
      have hlb : -(TAU F) ≤ a - TAU F * -w :=
        le_of_mul_le_mul_right hout2 hS0
      refine ⟨-w, ?_, hlb, hub⟩
      unfold subCode
      exact wrap_eq_self (by omega) (by omega)
  · -- branch skipped: the input is already within one turn
    have hle : |a| ≤ TAU F := by rw [← hra]; omega
    refine ⟨0, ?_, by omega, by omega⟩
    unfold rotBranch
    rw [if_neg hbr]
    ring

/-- `normalize_angle` lands in `[-PI, PI]` on the certified domain. -/
theorem normalize_mem (F : Nat) (hF : F < 19) (a : Int)
    (hb : |a| ≤ TAU F ∨ (|a| + TAU F + 1) * 10 ^ F < 2 ^ 63) :
    -(PI F) ≤ normalizeAngle F a ∧ normalizeAngle F a ≤ PI F := by
  obtain ⟨m, heq, h1, h2⟩ := rotBranch_bound F hF a hb
  unfold normalizeAngle
  rw [heq]
  exact foldTau_mem F hF _ h1 h2

/-- C3 (amended): `normalize_angle(x)` lies in `[-PI.raw, PI.raw]` for
every precision `F ≤ 18` and every `x` whose scaled arithmetic cannot
overflow: `|x.raw| ≤ TAU.raw` (rotation branch skipped) or
`(|x.raw| + TAU.raw + 1) · 10^F < 2^63` (the scaled value plus one turn
fits `i64`, covering the rotation branch).  Outside that domain the
wrapping multiplication inside the division by `TAU` can collapse the
rotation count and leave the result far outside the interval, as the
counterexample at `x.raw = i64::MAX` shows. -/
theorem C3_normalize_range (F : Nat) (hF : F < 19) (a : Int)
    (hb : |a| ≤ TAU F ∨ (|a| + TAU F + 1) * 10 ^ F < 2 ^ 63) :
    -(PI F) ≤ normalizeAngle F a ∧ normalizeAngle F a ≤ PI F :=
  normalize_mem F hF a hb

/-- Witness for C3 at `F = 6`, `x.raw = 10^11` (about 15915 full turns,
deep inside the rotation branch). -/
theorem C3_normalize_range_witness :
    -(PI 6) ≤ normalizeAngle 6 (10 ^ 11) ∧ normalizeAngle 6 (10 ^ 11) ≤ PI 6 :=
  C3_normalize_range 6 (by decide) (10 ^ 11) (by decide)

end Cos

namespace Cos

/-- Modelled from the spec's words, for comparison with the source's
division: the half-away-from-zero rounding of the quotient `a / b`
(`b ≠ 0`): round the magnitude `|a| / |b|` to the nearest integer with
ties moved up, and give the result the sign of the exact quotient. -/
def specRoundAway (a b : Int) : Int :=
  if 0 ≤ a * b then (2 * |a| + |b|) / (2 * |b|)
  else -((2 * |a| + |b|) / (2 * |b|))

/-- Dropping one from a dividend that is not an exact multiple leaves the
Euclidean quotient unchanged. -/
theorem sub_one_ediv_eq {m d : Int} (hd : 0 < d) (hnd : m % d ≠ 0) :
    (m - 1) / d = m / d := by
  have h1 := Int.ediv_add_emod m d
  have h2 := Int.emod_nonneg m (by omega : d ≠ 0)
  have h3 := Int.emod_lt_of_pos m hd
  have hm : m - 1 = (m % d - 1) + d * (m / d) := by omega
  rw [hm, Int.add_mul_ediv_left _ _ (by omega : d ≠ 0),
    Int.ediv_eq_zero_of_lt (by omega) (by omega)]
  omega

/-- The source's `(a + b/2) / b` (all divisions truncating) equals the
textbook half-away-from-zero rounding `⌊(2a + b) / (2b)⌋` for a
nonnegative dividend and positive divisor. -/
theorem tdiv_half_eq (a b : Int) (ha : 0 ≤ a) (hb : 0 < b) :
    Int.tdiv (a + Int.tdiv b 2) b = (2 * a + b) / (2 * b) := by
  have hh : Int.tdiv b 2 = b / 2 := tdiv_nonneg_eq (by omega) (by norm_num)
  have hh0 : 0 ≤ b / 2 := Int.ediv_nonneg (by omega) (by norm_num)
  rw [hh, tdiv_nonneg_eq (by omega) (by omega)]
  have hmul : (a + b / 2) / b = 2 * (a + b / 2) / (2 * b) :=
    (Int.mul_ediv_mul_of_pos _ _ (by norm_num : (0 : Int) < 2)).symm
  rw [hmul]
  have hb2 : b % 2 = 0 ∨ b % 2 = 1 := by omega
  rcases hb2 with h | h
  · congr 1
    omega
  · have hm : 2 * (a + b / 2) = 2 * a + b - 1 := by omega
    rw [hm]
    apply sub_one_ediv_eq (by omega)
    intro hc
    have hpar := Int.emod_emod_of_dvd (2 * a + b)
      (by exact Dvd.intro b rfl : (2 : Int) ∣ 2 * b)
    rw [hc] at hpar
    omega

/-- C1 counterexample: at precision 0 the division `11 / (-3)` returns
`-3`, while half-away-from-zero rounding of `11 / (-3) = -3.67` is `-4`:
the source adds the half-divisor offset with the sign of the scaled
dividend instead of the sign of the quotient, so negative divisors are
misrounded. -/
theorem C1_counterexample :
    divCode 0 11 (-3) = some (-3) ∧ specRoundAway (11 * 10 ^ 0) (-3) = -4 := by
  decide

/-- C1 (amended): division fails on a zero divisor (and, inherited from
Rust, on the `i64::MIN / -1` overflow of the rounded numerator).  For a
**positive** divisor within overflow bounds the result is exactly the
half-away-from-zero rounding of the scaled dividend `x.raw · 10^F` for
both dividend signs; for negative divisors the source applies the
rounding offset with the dividend's sign and deviates from
half-away-from-zero, as the counterexample shows. -/
theorem C1_div_zero_and_half_away (F : Nat) (x y : Int) (_hF : F < 19)
    (hy : 0 < y) (hbound : |x| * 10 ^ F + y < 2 ^ 63) :
    divCode F x 0 = none ∧
    divCode F x y = some (specRoundAway (x * 10 ^ F) y) := by
  have hSc : SCALE F = 10 ^ F := rfl
  have hS : (0 : Int) < 10 ^ F := by positivity
  constructor
  · unfold divCode
    rw [if_pos rfl]
  · have habs2 : x * 10 ^ F ≤ |x| * 10 ^ F := by
      have := le_abs_self x
      nlinarith
    have habs3 : -(|x| * 10 ^ F) ≤ x * 10 ^ F := by
      have := neg_abs_le x
      nlinarith
    have habs0 : 0 ≤ |x| * 10 ^ F := by positivity
    have hhalf : Int.tdiv y 2 = y / 2 := tdiv_nonneg_eq (by omega) (by norm_num)
    have hh0 : 0 ≤ y / 2 := Int.ediv_nonneg (by omega) (by norm_num)
    have hh1 : y / 2 < y := by omega
    simp only [divCode, hSc]
    rw [if_neg (by omega : ¬ y = 0)]
    rw [wrap_eq_self (by omega) (by omega)]
    by_cases hx : 0 ≤ x * 10 ^ F
    · rw [if_pos hx, hhalf, wrap_eq_self (by omega) (by omega)]
      rw [if_neg (fun hand => by omega : ¬ (x * 10 ^ F + y / 2 = -(2 ^ 63) ∧ y = -1))]
      congr 1
      rw [← hhalf, tdiv_half_eq _ _ hx hy]
      unfold specRoundAway
      rw [if_pos (by positivity), abs_of_nonneg hx, abs_of_nonneg (by omega : (0:Int) ≤ y)]
    · push_neg at hx
      rw [if_neg (show ¬ 0 ≤ x * 10 ^ F from by omega)]
      rw [hhalf, wrap_eq_self (by omega) (by omega)]
      rw [if_neg (fun hand => by omega : ¬ (x * 10 ^ F - y / 2 = -(2 ^ 63) ∧ y = -1))]
      congr 1
      have hstep : Int.tdiv (x * 10 ^ F - y / 2) y =
          -Int.tdiv (-(x * 10 ^ F) + Int.tdiv y 2) y := by
        rw [← Int.neg_tdiv, hhalf]
        congr 1
        ring
      rw [hstep, tdiv_half_eq _ _ (by omega) hy]
      unfold specRoundAway
      rw [if_neg (by nlinarith : ¬ (0 : Int) ≤ x * 10 ^ F * y),
        abs_of_neg hx, abs_of_nonneg (by omega : (0:Int) ≤ y)]

/-- Witness for C1 at `F = 0`, `7 / 2` (a tie, rounded away to 4). -/
theorem C1_div_zero_and_half_away_witness :
    divCode 0 7 0 = none ∧ divCode 0 7 2 = some (specRoundAway (7 * 10 ^ 0) 2) :=
  C1_div_zero_and_half_away 0 7 2 (by decide) (by decide) (by decide)

end Cos

namespace Cos

end Cos

namespace Cos

/-- Folding two values of `[-TAU, TAU]` that differ by a whole number of
turns gives the same result, provided the common residue avoids the two
boundary bands `[TAU - PI, PI]` and `[-PI, PI - TAU]` (at most two raw
units wide each) on which the fold genuinely picks different endpoint
representatives. -/
theorem foldTau_pair (F : Nat) (hF : F < 19) (x b mm : Int)
    (hcong : b = x + TAU F * mm) (hx : |x| ≤ TAU F) (hbb : |b| ≤ TAU F)
    (hband1 : ¬(TAU F - PI F ≤ x ∧ x ≤ PI F))
    (hband2 : ¬(-(PI F) ≤ x ∧ x ≤ PI F - TAU F)) :
    foldTau F b = foldTau F x := by
  obtain ⟨hp0, hp4, hpt, htl, htu⟩ := tau_pi_facts F hF
  obtain ⟨hp3, ht6, ht7⟩ := tau_scale_facts F hF
  have hxx := abs_le.mp hx
  have hbx := abs_le.mp hbb
  have hmml : -2 ≤ mm := by
    by_contra hcon
    push_neg at hcon
    have h3 : TAU F * mm ≤ TAU F * -3 :=
      mul_le_mul_of_nonneg_left (by omega) (by omega)
    have : TAU F * -3 = -(3 * TAU F) := by ring
    omega
  have hmmu : mm ≤ 2 := by
    by_contra hcon
    push_neg at hcon
    have h3 : TAU F * 3 ≤ TAU F * mm :=
      mul_le_mul_of_nonneg_left (by omega) (by omega)
    have : TAU F * 3 = 3 * TAU F := by ring
    omega
  have hcases : mm = -2 ∨ mm = -1 ∨ mm = 0 ∨ mm = 1 ∨ mm = 2 := by omega
  have hneg : negCode (PI F) = -(PI F) := by
    unfold negCode
    rw [wrap_eq_self (by omega) (by omega)]
  unfold foldTau
  rw [hneg]
  unfold subCode addCode
  rcases hcases with h | h | h | h | h <;> subst h <;>
    subst hcong <;> simp only [wrap] <;> split_ifs <;> omega

set_option maxRecDepth 4000 in
/-- C4 counterexample: at precision 6 (`PI.raw = 3141593`,
`TAU.raw = 6283185`) adding one full turn changes the normalization on
all four boundary raw values `TAU-PI = 3141592`, `PI = 3141593`,
`PI-TAU = -3141592` and `-PI = -3141593`: the rounded rotation count
lands on the other endpoint representative of the same angle.  In
particular the claim fails at `x = PI`, `k = 1`. -/
theorem C4_counterexample :
    normalizeAngle 6 (addCode (PI 6) (mulRaw (SCALE 6) (TAU 6) (fromInt 6 1))) ≠
      normalizeAngle 6 (PI 6) ∧
    normalizeAngle 6 (addCode 3141592 (mulRaw (SCALE 6) (TAU 6) (fromInt 6 1))) ≠
      normalizeAngle 6 3141592 ∧
    normalizeAngle 6 (addCode (-3141592) (mulRaw (SCALE 6) (TAU 6) (fromInt 6 1))) ≠
      normalizeAngle 6 (-3141592) ∧
    normalizeAngle 6 (addCode (-3141593) (mulRaw (SCALE 6) (TAU 6) (fromInt 6 1))) ≠
      normalizeAngle 6 (-3141593) := by decide

/-- C4 (amended): for every precision `F ≤ 18`, `normalize_angle` is
idempotent on every input whose scaled arithmetic cannot overflow
(`|x.raw| ≤ TAU.raw`, or the scaled magnitude plus one turn fits `i64`);
and it is periodic — `normalize_angle(x + k·τ) = normalize_angle(x)` with
`k·τ` the fixed-point product `TAU * from_int(k)` — for every `x` within
one turn (`|x.raw| ≤ TAU.raw`) that avoids the two boundary bands
`[TAU-PI, PI]` and `[-PI, PI-TAU]` (each at most two raw units wide,
where the counterexample shows periodicity genuinely fails), and every
`k` with `(|k| + 3) · TAU.raw · 10^F < 2^63`. -/
theorem C4_idempotent_periodic :
    (∀ F : Nat, F < 19 → ∀ a : Int,
        (|a| ≤ TAU F ∨ (|a| + TAU F + 1) * 10 ^ F < 2 ^ 63) →
        normalizeAngle F (normalizeAngle F a) = normalizeAngle F a) ∧
    (∀ F : Nat, F < 19 → ∀ k x : Int, |x| ≤ TAU F →
        ¬(TAU F - PI F ≤ x ∧ x ≤ PI F) →
        ¬(-(PI F) ≤ x ∧ x ≤ PI F - TAU F) →
        (|k| + 3) * TAU F * 10 ^ F < 2 ^ 63 →
        normalizeAngle F (addCode x (mulRaw (SCALE F) (TAU F) (fromInt F k))) =
          normalizeAngle F x) := by
  constructor
  · intro F hF a hb
    have hmem := normalize_mem F hF a hb
    exact normalize_fixed F hF _ hmem.1 hmem.2
  · intro F hF k x hx hband1 hband2 hk
    obtain ⟨hp0, hp4, hpt, htl, htu⟩ := tau_pi_facts F hF
    obtain ⟨hp3, ht6, ht7⟩ := tau_scale_facts F hF
    have hS0 : (0 : Int) < 10 ^ F := by positivity
    have hS1 : (1 : Int) ≤ 10 ^ F := by omega
    have hxx := abs_le.mp hx
    have hk1 : k ≤ |k| := le_abs_self k
    have hk2 : -|k| ≤ k := neg_abs_le k
    have hk0 : 0 ≤ |k| := abs_nonneg k
    have hSc : SCALE F = 10 ^ F := rfl
    -- overflow headroom facts, all linear over the monomials involved
    have hTS0 : (0 : Int) ≤ TAU F * 10 ^ F := by positivity
    have htS : TAU F ≤ TAU F * 10 ^ F :=
      le_mul_of_one_le_right (by omega) hS1
    have hST : 10 ^ F ≤ TAU F * 10 ^ F :=
      le_mul_of_one_le_left (by omega) (by omega)
    have hkT : |k| * TAU F ≤ |k| * (TAU F * 10 ^ F) :=
      mul_le_mul_of_nonneg_left htS hk0
    have hkS : |k| * 10 ^ F ≤ |k| * (TAU F * 10 ^ F) :=
      mul_le_mul_of_nonneg_left hST hk0
    have hkSu : k * 10 ^ F ≤ |k| * 10 ^ F :=
      mul_le_mul_of_nonneg_right hk1 (by omega)
    have hkSl : -(|k| * 10 ^ F) ≤ k * 10 ^ F := by
      have := mul_le_mul_of_nonneg_right hk2 (show (0:Int) ≤ 10 ^ F by omega)
      linarith
    have hfi : fromInt F k = k * 10 ^ F := by
      unfold fromInt
      rw [hSc]
      apply satMul_eq
      · linarith
      · linarith
    have habsk : |TAU F * k| = TAU F * |k| := by
      rw [abs_mul, abs_of_nonneg (show (0:Int) ≤ TAU F from by omega)]
    have hμ : mulRaw (10 ^ F) (TAU F) (k * 10 ^ F) = TAU F * k := by
      apply mulRaw_mul_exact _ _ _ hS0
      rw [habsk]
      linarith
    have hτkb : |TAU F * k| ≤ |k| * (TAU F * 10 ^ F) := by
      rw [habsk]
      linarith
    have hτk := abs_le.mp hτkb
    rw [hfi, hSc, hμ]
    have htot : addCode x (TAU F * k) = x + TAU F * k := by
      unfold addCode
      apply wrap_eq_self
      · linarith
      · linarith
    rw [htot]
    have hbnd : |x + TAU F * k| ≤ TAU F ∨
        (|x + TAU F * k| + TAU F + 1) * 10 ^ F < 2 ^ 63 := by
      right
      have habs : |x + TAU F * k| ≤ TAU F + TAU F * |k| := by
        calc |x + TAU F * k| ≤ |x| + |TAU F * k| := abs_add _ _
        _ ≤ TAU F + TAU F * |k| := by rw [habsk]; omega
      have hmul : (|x + TAU F * k| + TAU F + 1) * 10 ^ F ≤
          (TAU F + TAU F * |k| + TAU F + 1) * 10 ^ F :=
        mul_le_mul_of_nonneg_right (by linarith) (by omega)
      linarith
    obtain ⟨m, heq, hb1, hb2⟩ := rotBranch_bound F hF (x + TAU F * k) hbnd
    have hrbx : rotBranch F x = x := by
      unfold rotBranch
      have hra : rAbs x ≤ TAU F := by
        unfold rAbs
        split_ifs with h
        · rw [wrap_eq_self (by omega) (by omega)]; omega
        · omega
      rw [if_neg (by omega)]
    unfold normalizeAngle
    rw [heq, hrbx]
    exact foldTau_pair F hF x (x + TAU F * k - TAU F * m) (k - m) (by ring) hx
      (abs_le.mpr ⟨hb1, hb2⟩) hband1 hband2

/-- Witness for C4: idempotence at `F = 6`, `x.raw = 10^11`, and
periodicity at `x.raw = 4000000` (outside `[-PI, PI]` but within one
turn), `k = 100`. -/
theorem C4_idempotent_periodic_witness :
    normalizeAngle 6 (normalizeAngle 6 (10 ^ 11)) = normalizeAngle 6 (10 ^ 11) ∧
    normalizeAngle 6 (addCode 4000000 (mulRaw (SCALE 6) (TAU 6) (fromInt 6 100))) =
      normalizeAngle 6 4000000 :=
  ⟨C4_idempotent_periodic.1 6 (by norm_num) (10 ^ 11) (by decide),
   C4_idempotent_periodic.2 6 (by norm_num) 100 4000000 (by decide) (by decide)
     (by decide) (by decide)⟩

end Cos
